import Mathlib

/-!
Verification of the skills_extract matching/aggregation engine.

The definitions below are a shallow embedding of the Python source:
* `SkillExtractor._build_patterns` / `SkillExtractor.extract`
  (src/features/skill_extractor.py) — regex alternation scanning with
  word boundaries, case folding, variation normalization, order-preserving
  deduplication and running statistics;
* `Aggregator.calculate_document_frequency`, `Aggregator._aggregate_group`,
  `Aggregator.normalize_role` (src/features/aggregator.py);
* `RulesGenerator._create_rule` (src/features/rules_generator.py);
* `SkillDictionary.load_from_file`, `get_all_skills`,
  `get_skills_by_category`, `contains`, `get_category`
  (src/features/skill_dictionary.py).

Texts and patterns are modelled as `List Char`; Python floats are modelled
as exact rationals; the Python object heap (needed for the copy-semantics
claims) is modelled as an explicit store of reference cells.
-/

set_option autoImplicit false

namespace SkillsExtract

/-! ## Regex-engine model: word boundaries, case folding, alternation scan

The compiled pattern is `\b(p1|p2|...|pn)\b` with `re.IGNORECASE` unless
`case_sensitive` is set.  The Python `re` engine returns at each attempted
start position the first alternative (in pattern order) that matches there,
and `findall` resumes scanning at the end of each non-empty match. -/

/-- Python `\w`: alphanumeric or underscore (ASCII/Unicode word character). -/
def wordChar (c : Char) : Bool :=
  c.isAlphanum || c == '_'

/-- Whether position `j` of the text holds a word character (out of range
counts as a non-word character, as at the ends of a Python string). -/
def wordCharAt (t : List Char) (j : Nat) : Bool :=
  match t[j]? with
  | some c => wordChar c
  | none => false

/-- Python `\b`: exactly one side of position `j` is a word character. -/
def isBoundary (t : List Char) (j : Nat) : Bool :=
  (if j = 0 then false else wordCharAt t (j - 1)) != wordCharAt t j

/-- Case folding applied by `re.IGNORECASE` (identity in case-sensitive mode). -/
def foldCase (ci : Bool) (c : Char) : Char :=
  if ci then c.toLower else c

/-- Equality of character strings up to the configured case folding. -/
def eqCI (ci : Bool) (a b : List Char) : Bool :=
  a.map (foldCase ci) == b.map (foldCase ci)

/-- The alternative `p` of the compiled pattern `\b(...)\b` succeeds at
position `i` of text `t`: the text continues with `p` (up to case folding)
and both ends sit on word boundaries. -/
def matchesAt (t : List Char) (i : Nat) (p : List Char) (ci : Bool) : Bool :=
  decide (i + p.length ≤ t.length) &&
  eqCI ci ((t.drop i).take p.length) p &&
  isBoundary t i &&
  isBoundary t (i + p.length)

/-- The first alternative, in pattern order, succeeding at position `i`
(Python alternation preference). -/
def firstMatch (pats : List (List Char)) (t : List Char) (i : Nat)
    (ci : Bool) : Option (List Char) :=
  pats.find? (fun p => matchesAt t i p ci)

/-- The scan loop of `findall`: attempt a match at each position, resume
after the end of each non-empty match.  Returns `(start, alternative)`
pairs; `fuel` bounds the number of attempted positions. -/
def scanAux (pats : List (List Char)) (t : List Char) (ci : Bool) :
    Nat → Nat → List (Nat × List Char)
  | _, 0 => []
  | i, fuel + 1 =>
    if i ≤ t.length then
      match firstMatch pats t i ci with
      | some p => (i, p) :: scanAux pats t ci (i + max p.length 1) fuel
      | none => scanAux pats t ci (i + 1) fuel
    else []

/-- All matches of the compiled pattern against `t`, as `(start, alternative)`
pairs, in left-to-right order. -/
def findallP (pats : List (List Char)) (t : List Char) (ci : Bool) :
    List (Nat × List Char) :=
  scanAux pats t ci 0 (t.length + 2)

/-- `re.findall` on `\b(p1|...|pn)\b`: the captured group is the text
fragment actually matched (original case, from the scanned text). -/
def findall (pats : List (List Char)) (t : List Char) (ci : Bool) :
    List (List Char) :=
  (findallP pats t ci).map (fun m => (t.drop m.1).take m.2.length)

/-! ## Pattern construction: `SkillExtractor._build_patterns`

`sorted(all_patterns, key=len, reverse=True)` sorts the matchable strings
by descending character length before the alternation is compiled. -/

/-- Insert into a list kept sorted by descending length (before the first
element that is not strictly longer — the relative order of equal-length
strings is that of the input, as for Python's stable `sorted`). -/
def insertDesc (p : List Char) : List (List Char) → List (List Char)
  | [] => [p]
  | q :: qs => if p.length < q.length then q :: insertDesc p qs else p :: q :: qs

/-- `sorted(patterns, key=len, reverse=True)`. -/
def sortByLenDesc : List (List Char) → List (List Char)
  | [] => []
  | p :: ps => insertDesc p (sortByLenDesc ps)

theorem mem_insertDesc (p x : List Char) (l : List (List Char)) :
    x ∈ insertDesc p l ↔ x = p ∨ x ∈ l := by
  induction l with
  | nil => simp [insertDesc]
  | cons q qs ih =>
    by_cases h : p.length < q.length
    · simp only [insertDesc, if_pos h, List.mem_cons, ih]
      tauto
    · simp only [insertDesc, if_neg h, List.mem_cons]

theorem mem_sortByLenDesc (x : List Char) (l : List (List Char)) :
    x ∈ sortByLenDesc l ↔ x ∈ l := by
  induction l with
  | nil => simp [sortByLenDesc]
  | cons p ps ih =>
    simp only [sortByLenDesc, mem_insertDesc, List.mem_cons, ih]

/-- The output of `insertDesc` is sorted by non-increasing length when the
input is. -/
theorem pairwise_insertDesc (p : List Char) (l : List (List Char))
    (h : l.Pairwise (fun a b => b.length ≤ a.length)) :
    (insertDesc p l).Pairwise (fun a b => b.length ≤ a.length) := by
  induction l with
  | nil => simp [insertDesc]
  | cons q qs ih =>
    rcases List.pairwise_cons.mp h with ⟨hq, hqs⟩
    by_cases hlt : p.length < q.length
    · simp only [insertDesc, if_pos hlt]
      refine List.pairwise_cons.mpr ⟨?_, ih hqs⟩
      intro x hx
      rcases (mem_insertDesc p x qs).mp hx with rfl | hxq
      · exact Nat.le_of_lt hlt
      · exact hq x hxq
    · simp only [insertDesc, if_neg hlt]
      refine List.pairwise_cons.mpr ⟨?_, h⟩
      intro x hx
      rcases List.mem_cons.mp hx with rfl | hxq
      · exact Nat.le_of_not_lt hlt
      · exact Nat.le_trans (hq x hxq) (Nat.le_of_not_lt hlt)

/-- `sorted(..., key=len, reverse=True)` produces a list sorted by
non-increasing character length. -/
theorem pairwise_sortByLenDesc (l : List (List Char)) :
    (sortByLenDesc l).Pairwise (fun a b => b.length ≤ a.length) := by
  induction l with
  | nil => simp [sortByLenDesc]
  | cons p ps ih => exact pairwise_insertDesc p (sortByLenDesc ps) ih

/-! ## First-occurrence deduplication -/

/-- `SkillExtractor._remove_duplicates_preserve_order`: fold with a `seen`
set, keeping each skill the first time it appears. -/
def removeDupAux {α : Type} [DecidableEq α] (seen : List α) : List α → List α
  | [] => []
  | a :: t =>
    if a ∈ seen then removeDupAux seen t
    else a :: removeDupAux (a :: seen) t

/-- Entry point of the deduplication pass (empty `seen` set). -/
def removeDupPO {α : Type} [DecidableEq α] (l : List α) : List α :=
  removeDupAux [] l

/-- Specification-level first-occurrence deduplication: keep the head,
erase its later occurrences, recurse. -/
def dedupFO {α : Type} [DecidableEq α] : List α → List α
  | [] => []
  | a :: t =>
    a :: dedupFO (t.filter (fun x => x ≠ a))
termination_by l => l.length
decreasing_by
  simp only [List.length_cons]
  exact Nat.lt_succ_of_le (List.length_filter_le _ t)

theorem mem_dedupFO {α : Type} [DecidableEq α] (x : α) (l : List α) :
    x ∈ dedupFO l ↔ x ∈ l := by
  induction l using dedupFO.induct with
  | case1 => simp [dedupFO]
  | case2 a t ih =>
    simp only [dedupFO, List.mem_cons, ih, List.mem_filter, decide_eq_true_eq]
    constructor
    · rintro (rfl | ⟨hx, _⟩)
      · exact Or.inl rfl
      · exact Or.inr hx
    · rintro (rfl | hx)
      · exact Or.inl rfl
      · by_cases hxa : x = a
        · exact Or.inl hxa
        · exact Or.inr ⟨hx, hxa⟩

theorem nodup_dedupFO {α : Type} [DecidableEq α] (l : List α) :
    (dedupFO l).Nodup := by
  induction l using dedupFO.induct with
  | case1 => simp [dedupFO]
  | case2 a t ih =>
    simp only [dedupFO, List.nodup_cons]
    refine ⟨?_, ih⟩
    intro hmem
    rcases List.mem_filter.mp ((mem_dedupFO a _).mp hmem) with ⟨_, hne⟩
    simp at hne

theorem removeDupAux_eq_dedupFO {α : Type} [DecidableEq α]
    (l : List α) : ∀ seen : List α,
    removeDupAux seen l = dedupFO (l.filter (fun x => x ∉ seen)) := by
  induction l with
  | nil => intro seen; simp [removeDupAux, dedupFO]
  | cons a t ih =>
    intro seen
    by_cases ha : a ∈ seen
    · have hfil : (a :: t).filter (fun x => decide (x ∉ seen))
          = t.filter (fun x => decide (x ∉ seen)) := by
        simp [List.filter_cons, ha]
      simp only [removeDupAux, if_pos ha, hfil, ih seen]
    · have hfil : (a :: t).filter (fun x => decide (x ∉ seen))
          = a :: t.filter (fun x => decide (x ∉ seen)) := by
        simp [List.filter_cons, ha]
      have hff : (t.filter (fun x => decide (x ∉ seen))).filter
            (fun x => decide (x ≠ a))
          = t.filter (fun x => decide (x ∉ a :: seen)) := by
        rw [List.filter_filter]
        refine List.filter_congr ?_
        intro x _
        by_cases hxa : x = a
        · subst hxa; simp
        · by_cases hxs : x ∈ seen <;> simp [hxa, hxs]
      simp only [removeDupAux, if_pos, if_neg ha, hfil, dedupFO, hff, ih]

/-- The code's deduplication pass is exactly first-occurrence
deduplication. -/
theorem removeDupPO_eq_dedupFO {α : Type} [DecidableEq α] (l : List α) :
    removeDupPO l = dedupFO l := by
  have h := removeDupAux_eq_dedupFO l []
  simpa [removeDupPO] using h

theorem nodup_removeDupPO {α : Type} [DecidableEq α] (l : List α) :
    (removeDupPO l).Nodup := by
  rw [removeDupPO_eq_dedupFO]
  exact nodup_dedupFO l

/-! ## The extractor: `SkillExtractor` -/

/-- `str.lower()` on a fragment of matched text. -/
def lowerL (s : List Char) : List Char :=
  s.map Char.toLower

/-- `SkillExtractor._normalize_skill`: look the lowercased skill up in the
variation-to-canonical map, else return it lowercased unchanged. -/
def normalizeSkill (vmap : List (List Char × List Char)) (s : List Char) :
    List Char :=
  let sl := lowerL s
  match vmap.find? (fun e => e.1 == sl) with
  | some e => e.2
  | none => sl

/-- `SkillExtractor._build_patterns`: collect the dictionary skills and the
lowercased variation surface forms into a set, sort by descending length,
and compile; an empty pattern set leaves the matcher unset (`None`). -/
def buildPattern (allSkills : List (List Char))
    (variationLists : List (List (List Char))) : Option (List (List Char)) :=
  let allPatterns := removeDupPO (allSkills ++ variationLists.flatten.map lowerL)
  let sortedSkills := sortByLenDesc allPatterns
  if sortedSkills.isEmpty then none else some sortedSkills

/-- The extractor's running statistics (`SkillExtractor._stats`). -/
structure Stats where
  total_extractions : Nat
  total_skills_found : Nat
  unique_skills_found : List (List Char)
deriving DecidableEq

/-- Adding one element to a Python set (no-op when already present). -/
def setInsert (s : List (List Char)) (x : List Char) : List (List Char) :=
  if x ∈ s then s else s ++ [x]

/-- `set.update(skills)`: insert every extracted skill. -/
def statsUpdate (st : Stats) (skills : List (List Char)) : Stats :=
  { total_extractions := st.total_extractions + 1
    total_skills_found := st.total_skills_found + skills.length
    unique_skills_found := skills.foldl setInsert st.unique_skills_found }

/-- `SkillExtractor.reset_stats`: all counters back to zero. -/
def reset_stats : Stats :=
  { total_extractions := 0, total_skills_found := 0, unique_skills_found := [] }

/-- `SkillExtractor.extract`.  `pattern` is the compiled alternation
(`None` when the dictionary was empty); `ci` is true unless
`case_sensitive` is configured; `normalize` and `dedup` are the
`normalize_skills` / `remove_duplicates` settings; `st` is the current
statistics state.  Returns the extracted skills and the updated
statistics; the two early returns (falsy text, unset pattern) leave the
statistics untouched. -/
def extract (pattern : Option (List (List Char))) (ci normalize dedup : Bool)
    (vmap : List (List Char × List Char)) (st : Stats) (text : List Char) :
    List (List Char) × Stats :=
  if text.isEmpty then ([], st)
  else
    match pattern with
    | none => ([], st)
    | some pats =>
      let found := findall pats text ci
      let skills0 := found.map lowerL
      let skills1 := if normalize then skills0.map (normalizeSkill vmap) else skills0
      let skills := if dedup then removeDupPO skills1 else skills1
      (skills, statsUpdate st skills)

/-- Characters of a string literal. -/
def chars (s : String) : List Char :=
  s.data

/-! ## Longest-alternative preference of the compiled pattern -/

theorem firstMatch_eq_some {pats : List (List Char)} {t : List Char}
    {i : Nat} {ci : Bool} {p : List Char}
    (h : firstMatch pats t i ci = some p) :
    p ∈ pats ∧ matchesAt t i p ci = true := by
  rw [firstMatch] at h
  exact ⟨List.mem_of_find?_eq_some h, by simpa using List.find?_some h⟩

/-- In a pattern list sorted by non-increasing length, the first matching
alternative is at least as long as every matching alternative. -/
theorem firstMatch_longest (pats : List (List Char)) (t : List Char)
    (i : Nat) (ci : Bool) (p : List Char)
    (hsort : pats.Pairwise (fun a b => b.length ≤ a.length))
    (h : firstMatch pats t i ci = some p) :
    ∀ q ∈ pats, matchesAt t i q ci = true → q.length ≤ p.length := by
  induction pats with
  | nil => simp [firstMatch] at h
  | cons a l ih =>
    rcases List.pairwise_cons.mp hsort with ⟨ha, hl⟩
    intro q hq hmq
    rw [firstMatch] at h
    simp only [List.find?_cons] at h
    cases hma : matchesAt t i a ci with
    | true =>
      rw [hma] at h
      have hp : p = a := (Option.some_inj.mp h).symm
      subst hp
      rcases List.mem_cons.mp hq with rfl | hql
      · exact Nat.le_refl _
      · exact ha q hql
    | false =>
      rw [hma] at h
      have hrest : firstMatch l t i ci = some p := h
      rcases List.mem_cons.mp hq with rfl | hql
      · rw [hmq] at hma; exact absurd hma (by simp)
      · exact ih hl hrest q hql hmq

/-- Every `(position, alternative)` pair reported by the scan loop is a
genuine first match at a position at or after `i`, and consecutive
reported matches never overlap (the scan resumes after each match, so no
match starting inside an accepted match is ever reported). -/
theorem scanAux_spec (pats : List (List Char)) (t : List Char) (ci : Bool) :
    ∀ (fuel i : Nat),
    (∀ m ∈ scanAux pats t ci i fuel,
        i ≤ m.1 ∧ firstMatch pats t m.1 ci = some m.2) ∧
    (scanAux pats t ci i fuel).Chain' (fun x y => x.1 + x.2.length ≤ y.1) := by
  intro fuel
  induction fuel with
  | zero => intro i; simp [scanAux]
  | succ fuel ih =>
    intro i
    by_cases hi : i ≤ t.length
    · rcases hfm : firstMatch pats t i ci with _ | p
      · have hunf : scanAux pats t ci i (fuel + 1)
            = scanAux pats t ci (i + 1) fuel := by
          simp [scanAux, hi, hfm]
        rw [hunf]
        refine ⟨fun m hm => ⟨?_, ((ih (i + 1)).1 m hm).2⟩, (ih (i + 1)).2⟩
        exact Nat.le_trans (Nat.le_succ i) ((ih (i + 1)).1 m hm).1
      · have hunf : scanAux pats t ci i (fuel + 1)
            = (i, p) :: scanAux pats t ci (i + max p.length 1) fuel := by
          simp [scanAux, hi, hfm]
        rw [hunf]
        constructor
        · intro m hm
          rcases List.mem_cons.mp hm with rfl | hm'
          · exact ⟨Nat.le_refl _, hfm⟩
          · refine ⟨?_, ((ih (i + max p.length 1)).1 m hm').2⟩
            exact Nat.le_trans (Nat.le_add_right i _)
              ((ih (i + max p.length 1)).1 m hm').1
        · refine List.chain'_cons'.mpr ⟨?_, (ih (i + max p.length 1)).2⟩
          intro y hy
          have hy' : y ∈ scanAux pats t ci (i + max p.length 1) fuel :=
            List.mem_of_mem_head? hy
          have h1 : i + max p.length 1 ≤ y.1 :=
            ((ih (i + max p.length 1)).1 y hy').1
          exact Nat.le_trans
            (Nat.add_le_add_left (Nat.le_max_left _ _) i) h1
    · simp [scanAux, hi]

/-! ## Aggregator: `Aggregator` (src/features/aggregator.py)

Extraction results are per-document skill lists (Python strings, here
`String`); the frequency table's dict iteration order is modelled by the
order of an association list. -/

/-- `Aggregator.calculate_document_frequency`: a `Counter` updated with
`set(skills)` for each document, so each document contributes at most one
count per skill.  The returned dict is modelled as its counting function
(a skill absent from the dict has count 0). -/
def calculate_document_frequency (results : List (List String)) :
    String → Nat :=
  results.foldl
    (fun acc skills => fun s => acc s + (removeDupPO skills).count s)
    (fun _ => 0)

/-- One insertion step of Python's stable `sorted(..., key=lambda x: x[1],
reverse=True)`: an entry moves left past strictly smaller counts only, so
equal-count entries keep their original relative order. -/
def insertRanked (x : String × Nat) :
    List (String × Nat) → List (String × Nat)
  | [] => [x]
  | y :: ys => if x.2 < y.2 then y :: insertRanked x ys else x :: y :: ys

/-- `sorted(skill_frequencies.items(), key=lambda x: x[1], reverse=True)`. -/
def sortByCountDesc : List (String × Nat) → List (String × Nat)
  | [] => []
  | x :: xs => insertRanked x (sortByCountDesc xs)

/-- The top-N computation of `Aggregator._aggregate_group`: sort the
frequency items by descending count (stable) and truncate to `top_n`. -/
def topSkills (freqs : List (String × Nat)) (n : Nat) : List (String × Nat) :=
  (sortByCountDesc freqs).take n

/-- The percentage computation of `Aggregator._aggregate_group`:
`(count / total_jds) * 100 if total_jds > 0 else 0`, over exact rationals. -/
def skillPercentage (count total : Nat) : ℚ :=
  if 0 < total then ((count : ℚ) / (total : ℚ)) * 100 else 0

/-- Python `str.strip()` (on explicit character lists). -/
def stripL (s : List Char) : List Char :=
  ((s.dropWhile Char.isWhitespace).reverse.dropWhile Char.isWhitespace).reverse

/-- Lookup step of `Aggregator.normalize_role`: whether a mapping's
variation list (lowercased) contains the lowercased, stripped label. -/
def roleMatches (roleLower : List Char)
    (p : List Char × List (List Char)) : Bool :=
  (p.2.map lowerL).contains roleLower

/-- `Aggregator.normalize_role`: `None`/NaN and empty labels normalize to
`"Unknown"`; a label matched by some mapping (first mapping in dict order
wins) normalizes to that canonical label; any other label is returned
stripped but otherwise unchanged. -/
def normalize_role (mappings : List (List Char × List (List Char)))
    (role : Option (List Char)) : List Char :=
  match role with
  | none => chars "Unknown"
  | some r =>
    if r.isEmpty then chars "Unknown"
    else
      match mappings.find? (roleMatches (stripL (lowerL r))) with
      | some e => e.1
      | none => stripL r

/-! ## Rules generator: `RulesGenerator._create_rule` -/

/-- The percentage computed in `RulesGenerator._create_rule`:
`(count / total_jds) * 100 if total_jds > 0 else 0`. -/
def rulePercentage (count total : Nat) : ℚ :=
  if 0 < total then ((count : ℚ) / (total : ℚ)) * 100 else 0

/-- `is_core = percentage >= (self.core_threshold * 100)`. -/
def isCoreSkill (count total : Nat) (coreThreshold : ℚ) : Bool :=
  decide (rulePercentage count total ≥ coreThreshold * 100)

/-! ## Skill dictionary: `SkillDictionary.load_from_file` -/

/-- A dictionary source: either unreadable (missing path) or a readable
sequence of text lines. -/
inductive DictSource where
  | unreadable
  | readable (lines : List (List Char))

/-- One line of a skill file: strip whitespace, skip empty lines and
`#` comments, lowercase the term. -/
def parseLine? (line : List Char) : Option (List Char) :=
  let l := stripL line
  if l.isEmpty then none
  else if l.head? = some '#' then none
  else some (lowerL l)

/-- `SkillDictionary.load_from_file`: a missing/unreadable source is
logged and yields the empty set; a readable source yields the parsed
terms, first occurrence kept (`set` semantics). -/
def load_from_file (src : DictSource) : List (List Char) :=
  match src with
  | .unreadable => []
  | .readable lines => removeDupPO (lines.filterMap parseLine?)

/-- The error the specification prescribes for an unreadable dictionary
source. -/
inductive DictionaryLoadError where
  | sourceUnreadable
deriving DecidableEq

/-- Modelled from the spec: `load(source)` "fails with
`DictionaryLoadError` if the source cannot be read" and otherwise returns
the parsed skill set (empty is valid).  Stated only to compare against the
source's `load_from_file`, which has no failure channel. -/
def loadSpec (src : DictSource) :
    Except DictionaryLoadError (List (List Char)) :=
  match src with
  | .unreadable => .error .sourceUnreadable
  | .readable lines => .ok (removeDupPO (lines.filterMap parseLine?))

/-! ## Claim theorems -/

/-- C1: the compiled matcher prefers the longest matchable string at each
start position — every match reported by the scan is at least as long as
any alternative that matches at its start position (a consequence of
sorting the candidate patterns by descending character length before
compiling the alternation); consecutive reported matches never overlap, so
shorter matchable strings fully contained in an accepted longer match are
never reported; and with dictionary {"machine", "machine learning"},
extracting from "expert in machine learning" returns exactly
["machine learning"]. -/
theorem C1_longest_match_first :
    (∀ (skills : List (List Char)) (t : List Char) (ci : Bool),
      ∀ m ∈ findallP (sortByLenDesc skills) t ci,
        ∀ q ∈ skills, matchesAt t m.1 q ci = true → q.length ≤ m.2.length)
    ∧ (∀ (pats : List (List Char)) (t : List Char) (ci : Bool),
        (findallP pats t ci).Chain' (fun x y => x.1 + x.2.length ≤ y.1))
    ∧ (extract (buildPattern [chars "machine", chars "machine learning"] [])
        true true true [] reset_stats (chars "expert in machine learning")).1
      = [chars "machine learning"] := by
  refine ⟨?_, ?_, by decide⟩
  · intro skills t ci m hm q hq hmq
    have hspec := (scanAux_spec (sortByLenDesc skills) t ci (t.length + 2) 0).1 m hm
    exact firstMatch_longest (sortByLenDesc skills) t m.1 ci m.2
      (pairwise_sortByLenDesc skills) hspec.2 q
      ((mem_sortByLenDesc q skills).mpr hq) hmq
  · intro pats t ci
    exact (scanAux_spec pats t ci (t.length + 2) 0).2

/-- Witness for C1: at start position 10 of "expert in machine learning"
both "machine learning" and "machine" match, and the reported match
"machine learning" is at least as long as "machine". -/
theorem C1_longest_match_first_witness :
    (chars "machine").length ≤ (chars "machine learning").length :=
  C1_longest_match_first.1 [chars "machine", chars "machine learning"]
    (chars "expert in machine learning") true (10, chars "machine learning")
    (by decide) (chars "machine") (by decide) (by decide)

/-- C4: with `remove_duplicates = true`, `extract` returns a list without
duplicate canonical skills, and that list is exactly the first-occurrence
deduplication of the canonicalized raw match sequence (later occurrences
of an already-seen skill are dropped; the order is first-occurrence order,
not sorted order). -/
theorem C4_extract_dedup_first_occurrence :
    ∀ (pattern : Option (List (List Char))) (ci normalize : Bool)
      (vmap : List (List Char × List Char)) (st : Stats) (text : List Char),
      (extract pattern ci normalize true vmap st text).1.Nodup
      ∧ (∀ pats, pattern = some pats → text.isEmpty = false →
          (extract pattern ci normalize true vmap st text).1
            = dedupFO (if normalize
                then ((findall pats text ci).map lowerL).map (normalizeSkill vmap)
                else (findall pats text ci).map lowerL)) := by
  intro pattern ci normalize vmap st text
  constructor
  · by_cases ht : text.isEmpty
    · simp [extract, ht]
    · cases pattern with
      | none => simp [extract, ht]
      | some pats =>
        simp only [extract, ht, Bool.false_eq_true, if_false, if_true]
        exact nodup_removeDupPO _
  · intro pats hp ht
    subst hp
    simp only [extract, ht, Bool.false_eq_true, if_false, if_true]
    exact removeDupPO_eq_dedupFO _

/-- Witness for C4: extracting "python python python" against the single
pattern "python" returns the first-occurrence deduplication of the three
raw matches. -/
theorem C4_extract_dedup_first_occurrence_witness :
    (extract (some [chars "python"]) true true true [] reset_stats
        (chars "python python python")).1
      = dedupFO (if true
          then ((findall [chars "python"] (chars "python python python") true).map
                  lowerL).map (normalizeSkill [])
          else (findall [chars "python"] (chars "python python python") true).map
                  lowerL) :=
  (C4_extract_dedup_first_occurrence (some [chars "python"]) true true []
      reset_stats (chars "python python python")).2
    [chars "python"] rfl (by decide)

theorem mem_removeDupPO {α : Type} [DecidableEq α] (a : α) (l : List α) :
    a ∈ removeDupPO l ↔ a ∈ l := by
  rw [removeDupPO_eq_dedupFO]
  exact mem_dedupFO a l

theorem count_removeDupPO {α : Type} [DecidableEq α] (l : List α) (a : α) :
    (removeDupPO l).count a = if a ∈ l then 1 else 0 := by
  by_cases h : a ∈ l
  · rw [if_pos h]
    exact List.count_eq_one_of_mem (nodup_removeDupPO l)
      ((mem_removeDupPO a l).mpr h)
  · rw [if_neg h]
    exact List.count_eq_zero_of_not_mem
      (fun hm => h ((mem_removeDupPO a l).mp hm))

theorem calcDF_foldl (results : List (List String)) (acc : String → Nat)
    (s : String) :
    results.foldl
        (fun a skills => fun x => a x + (removeDupPO skills).count x) acc s
      = acc s + (results.filter (fun r => decide (s ∈ r))).length := by
  induction results generalizing acc with
  | nil => simp
  | cons r rs ih =>
    simp only [List.foldl_cons, ih, List.filter_cons]
    by_cases hs : s ∈ r
    · simp [hs, count_removeDupPO]
      omega
    · simp [hs, count_removeDupPO]

/-- C5: the document frequency of a skill is the number of extraction
results whose deduplicated skill set contains it — each document
contributes at most one count per skill regardless of how many raw
mentions it had — and is therefore bounded by the number of documents. -/
theorem C5_document_frequency_counts_documents :
    ∀ (results : List (List String)) (s : String),
      calculate_document_frequency results s
        = (results.filter (fun r => decide (s ∈ r))).length
      ∧ calculate_document_frequency results s ≤ results.length := by
  intro results s
  have h : calculate_document_frequency results s
      = (results.filter (fun r => decide (s ∈ r))).length := by
    rw [calculate_document_frequency, calcDF_foldl]
    exact Nat.zero_add _
  exact ⟨h, h ▸ List.length_filter_le _ results⟩

theorem perm_insertRanked (x : String × Nat) (l : List (String × Nat)) :
    List.Perm (insertRanked x l) (x :: l) := by
  induction l with
  | nil => exact List.Perm.refl _
  | cons y ys ih =>
    by_cases h : x.2 < y.2
    · simp only [insertRanked, if_pos h]
      exact (List.Perm.cons y ih).trans (List.Perm.swap x y ys)
    · simp only [insertRanked, if_neg h]
      exact List.Perm.refl _

theorem perm_sortByCountDesc (l : List (String × Nat)) :
    List.Perm (sortByCountDesc l) l := by
  induction l with
  | nil => exact List.Perm.refl _
  | cons x xs ih =>
    exact (perm_insertRanked x (sortByCountDesc xs)).trans (List.Perm.cons x ih)

theorem pairwise_insertRanked (x : String × Nat) (l : List (String × Nat))
    (h : l.Pairwise (fun a b => b.2 ≤ a.2)) :
    (insertRanked x l).Pairwise (fun a b => b.2 ≤ a.2) := by
  induction l with
  | nil => simp [insertRanked]
  | cons y ys ih =>
    rcases List.pairwise_cons.mp h with ⟨hy, hys⟩
    by_cases hlt : x.2 < y.2
    · simp only [insertRanked, if_pos hlt]
      refine List.pairwise_cons.mpr ⟨?_, ih hys⟩
      intro z hz
      have hz' : z ∈ x :: ys := (perm_insertRanked x ys).mem_iff.mp hz
      rcases List.mem_cons.mp hz' with rfl | hzy
      · exact Nat.le_of_lt hlt
      · exact hy z hzy
    · simp only [insertRanked, if_neg hlt]
      refine List.pairwise_cons.mpr ⟨?_, h⟩
      intro z hz
      rcases List.mem_cons.mp hz with rfl | hzy
      · exact Nat.le_of_not_lt hlt
      · exact Nat.le_trans (hy z hzy) (Nat.le_of_not_lt hlt)

theorem pairwise_sortByCountDesc (l : List (String × Nat)) :
    (sortByCountDesc l).Pairwise (fun a b => b.2 ≤ a.2) := by
  induction l with
  | nil => simp [sortByCountDesc]
  | cons x xs ih => exact pairwise_insertRanked x (sortByCountDesc xs) ih

/-- C2 counterexample: with the frequency table encountered in the order
b before a (both with document frequency 1), the top-2 ranking keeps that
encounter order — Python's stable sort on the count alone — and does not
produce the ascending lexical order the claim asserts. -/
theorem C2_counterexample_no_lexical_tiebreak :
    topSkills [("b", 1), ("a", 1)] 2 = [("b", 1), ("a", 1)]
    ∧ topSkills [("b", 1), ("a", 1)] 2 ≠ [("a", 1), ("b", 1)] := by
  constructor
  · rfl
  · decide

/-- C2 amended: the top-N ranking lists `min N |table|` entries of the
frequency table in non-increasing document-frequency order, and every
table entry left out has a count no larger than every listed entry; ties
between equal-frequency skills keep the frequency table's own (encounter)
order — the stable sort is on the count alone — rather than ascending
lexical order of the skill name. -/
theorem C2_top_n_highest_frequencies :
    ∀ (freqs : List (String × Nat)) (n : Nat),
      (topSkills freqs n).Pairwise (fun a b => b.2 ≤ a.2)
      ∧ (topSkills freqs n).length = min n freqs.length
      ∧ (∀ x ∈ topSkills freqs n, x ∈ freqs)
      ∧ (∀ y ∈ freqs, y ∈ topSkills freqs n
          ∨ ∀ x ∈ topSkills freqs n, y.2 ≤ x.2) := by
  intro freqs n
  have hsp := pairwise_sortByCountDesc freqs
  have hperm := perm_sortByCountDesc freqs
  refine ⟨?_, ?_, ?_, ?_⟩
  · exact List.Pairwise.sublist (List.take_sublist n _) hsp
  · rw [topSkills, List.length_take, hperm.length_eq]
  · intro x hx
    exact hperm.mem_iff.mp (List.mem_of_mem_take hx)
  · intro y hy
    have hys : y ∈ sortByCountDesc freqs := hperm.mem_iff.mpr hy
    have hsplit := List.take_append_drop n (sortByCountDesc freqs)
    have hpa : (List.take n (sortByCountDesc freqs)
        ++ List.drop n (sortByCountDesc freqs)).Pairwise
          (fun a b => b.2 ≤ a.2) := by
      rw [hsplit]; exact hsp
    rcases List.mem_append.mp (by rw [hsplit]; exact hys) with hin | hdrop
    · exact Or.inl hin
    · exact Or.inr (fun x hx => (List.pairwise_append.mp hpa).2.2 x hx y hdrop)

/-- Witness for C2 amended: the entry ("a", 1) of the example table is
either listed in the top-2 or dominated by every listed entry. -/
theorem C2_top_n_highest_frequencies_witness :
    ("a", 1) ∈ topSkills [("b", 1), ("a", 1)] 2
    ∨ ∀ x ∈ topSkills [("b", 1), ("a", 1)] 2, ("a", 1).2 ≤ x.2 :=
  (C2_top_n_highest_frequencies [("b", 1), ("a", 1)] 2).2.2.2
    ("a", 1) (by decide)

/-- C3 counterexample: the code's loader has no failure channel — on an
unreadable source it logs and returns the empty set, the very same value a
readable zero-term source yields, so no `DictionaryLoadError` distinct
from the empty-dictionary case ever arises (the exception class does not
exist in the code); the spec-modelled loader disagrees with the code on
the unreadable source. -/
theorem C3_counterexample_no_load_error :
    load_from_file DictSource.unreadable = load_from_file (DictSource.readable [])
    ∧ load_from_file DictSource.unreadable = []
    ∧ loadSpec DictSource.unreadable
        ≠ Except.ok (load_from_file DictSource.unreadable) := by
  refine ⟨rfl, rfl, fun h => ?_⟩
  simp [loadSpec, load_from_file] at h

/-- C3 amended: a source path that cannot be read yields an empty but
valid skill set (the error is only logged), exactly as a readable source
with zero usable terms does; no exception is raised. -/
theorem C3_unreadable_source_yields_empty_set :
    load_from_file DictSource.unreadable = []
    ∧ (∀ lines : List (List Char),
        (∀ l ∈ lines, (stripL l).isEmpty = true ∨ (stripL l).head? = some '#') →
        load_from_file (DictSource.readable lines) = []) := by
  refine ⟨rfl, ?_⟩
  intro lines h
  have hpl : ∀ l ∈ lines, parseLine? l = none := by
    intro l hl
    rcases h l hl with he | hh
    · simp [parseLine?, he]
    · by_cases he2 : (stripL l).isEmpty
      · simp [parseLine?, he2]
      · simp [parseLine?, he2, hh]
  have hnil : lines.filterMap parseLine? = [] := by
    rw [List.filterMap_eq_nil_iff]
    exact hpl
  simp [load_from_file, hnil, removeDupPO, removeDupAux]

/-- Witness for C3 amended: a file holding only a comment line loads as
the empty skill set. -/
theorem C3_unreadable_source_yields_empty_set_witness :
    load_from_file (DictSource.readable [chars "# python"]) = [] :=
  C3_unreadable_source_yields_empty_set.2 [chars "# python"] (by decide)

/-- C6 counterexample: a raw group label not mapped by the synonym table
is returned stripped but otherwise unchanged, not normalized to the
sentinel "Unknown". -/
theorem C6_counterexample_unmapped_label_passthrough :
    normalize_role [] (some (chars "Wizard")) = chars "Wizard"
    ∧ normalize_role [] (some (chars "Wizard")) ≠ chars "Unknown" := by
  constructor
  · rfl
  · decide

/-- C6 amended: missing (None/NaN) and empty labels normalize to the
sentinel "Unknown"; a label whose lowercased stripped form occurs in some
mapping's variation list is replaced by that canonical label; every other
label passes through stripped of surrounding whitespace — in particular an
unmapped label whose stripped form differs from "Unknown" is never sent to
"Unknown". -/
theorem C6_role_normalization :
    ∀ (maps : List (List Char × List (List Char))) (r : List Char),
      normalize_role maps none = chars "Unknown"
      ∧ normalize_role maps (some []) = chars "Unknown"
      ∧ (r.isEmpty = false →
          (∀ e, maps.find? (roleMatches (stripL (lowerL r))) = some e →
            normalize_role maps (some r) = e.1)
          ∧ (maps.find? (roleMatches (stripL (lowerL r))) = none →
            normalize_role maps (some r) = stripL r)
          ∧ (maps.find? (roleMatches (stripL (lowerL r))) = none →
            stripL r ≠ chars "Unknown" →
            normalize_role maps (some r) ≠ chars "Unknown")) := by
  intro maps r
  refine ⟨rfl, rfl, ?_⟩
  intro hre
  refine ⟨?_, ?_, ?_⟩
  · intro e hfind
    simp [normalize_role, hre, hfind]
  · intro hfind
    simp [normalize_role, hre, hfind]
  · intro hfind hne
    simp [normalize_role, hre, hfind]
    exact hne

/-- Witness for C6 amended: the label "ds", mapped by the synonym table to
"Data Scientist", normalizes to that canonical label. -/
theorem C6_role_normalization_witness :
    normalize_role [(chars "Data Scientist", [chars "ds"])]
        (some (chars "ds"))
      = (chars "Data Scientist", [chars "ds"]).1 :=
  ((C6_role_normalization [(chars "Data Scientist", [chars "ds"])]
      (chars "ds")).2.2 (by decide)).1
    (chars "Data Scientist", [chars "ds"]) (by decide)

theorem mem_setInsert (s : List (List Char)) (a x : List Char) :
    x ∈ setInsert s a ↔ x ∈ s ∨ x = a := by
  by_cases h : a ∈ s
  · simp only [setInsert, if_pos h]
    constructor
    · exact Or.inl
    · rintro (hx | rfl)
      · exact hx
      · exact h
  · simp [setInsert, if_neg h, List.mem_append]

theorem mem_foldl_setInsert (xs : List (List Char)) (s : List (List Char))
    (x : List Char) :
    x ∈ xs.foldl setInsert s ↔ x ∈ s ∨ x ∈ xs := by
  induction xs generalizing s with
  | nil => simp
  | cons a t ih =>
    simp only [List.foldl_cons, ih, mem_setInsert, List.mem_cons]
    tauto

/-- C7 counterexample: a call to `extract` on a falsy (empty) text returns
through the input guard without touching the statistics — the
total-extractions counter does not increase by one on that call. -/
theorem C7_counterexample_early_return_skips_stats :
    (extract (some [chars "python"]) true true true [] reset_stats []).2
      = reset_stats
    ∧ (extract (some [chars "python"]) true true true [] reset_stats
        []).2.total_extractions ≠ reset_stats.total_extractions + 1 := by
  constructor
  · rfl
  · decide

/-- C7 amended: a call to `extract` that passes the input guard (non-empty
text, compiled pattern present) increments the total-extractions counter
by exactly one, increases the total-skills counter by the number of skills
kept for that document, and adds each kept skill to the running set of
distinct skills seen; the early returns (empty text, unset pattern) leave
the statistics untouched; `reset_stats` is the initial all-zero state. -/
theorem C7_stats_updated_only_on_full_extraction :
    (∀ (pats : List (List Char)) (ci nm dd : Bool)
       (vmap : List (List Char × List Char)) (st : Stats) (text : List Char),
      text.isEmpty = false →
        ((extract (some pats) ci nm dd vmap st text).2.total_extractions
            = st.total_extractions + 1
        ∧ (extract (some pats) ci nm dd vmap st text).2.total_skills_found
            = st.total_skills_found
              + (extract (some pats) ci nm dd vmap st text).1.length
        ∧ ∀ x, x ∈ (extract (some pats) ci nm dd vmap st
              text).2.unique_skills_found
            ↔ x ∈ st.unique_skills_found
              ∨ x ∈ (extract (some pats) ci nm dd vmap st text).1))
    ∧ (∀ (pats : List (List Char)) (ci nm dd : Bool)
        (vmap : List (List Char × List Char)) (st : Stats),
        extract (some pats) ci nm dd vmap st [] = ([], st))
    ∧ (∀ (ci nm dd : Bool) (vmap : List (List Char × List Char))
        (st : Stats) (text : List Char),
        extract none ci nm dd vmap st text = ([], st))
    ∧ reset_stats = { total_extractions := 0, total_skills_found := 0, unique_skills_found := [] } := by
  refine ⟨?_, ?_, ?_, rfl⟩
  · intro pats ci nm dd vmap st text ht
    simp only [extract, ht, Bool.false_eq_true, if_false]
    exact ⟨rfl, rfl, fun x => mem_foldl_setInsert _ _ x⟩
  · intro pats ci nm dd vmap st
    rfl
  · intro ci nm dd vmap st text
    by_cases ht : text.isEmpty <;> simp [extract, ht]

/-- Witness for C7 amended: extracting "python" from the initial
statistics state leaves a total-extractions counter of one. -/
theorem C7_stats_updated_only_on_full_extraction_witness :
    (extract (some [chars "python"]) true true true [] reset_stats
        (chars "python")).2.total_extractions
      = reset_stats.total_extractions + 1 :=
  (C7_stats_updated_only_on_full_extraction.1 [chars "python"] true true
    true [] reset_stats (chars "python") (by decide)).1

/-- C8: the core-skill flag is set exactly when the computed percentage
reaches the threshold scaled to percent — equivalently, for a non-empty
group, exactly when `t * total ≤ count` — with an inclusive boundary: at
threshold 1/2 a skill present in exactly half the documents is flagged
core (`total ≤ 2 * count` holds with equality). -/
theorem C8_core_flag_boundary_inclusive :
    ∀ (count total : Nat) (t : ℚ), 0 ≤ t → t ≤ 1 →
      (0 < total →
        ((isCoreSkill count total t = true ↔ t * total ≤ count)
        ∧ (isCoreSkill count total ((1 : ℚ) / 2) = true ↔ total ≤ 2 * count)))
      ∧ (isCoreSkill count 0 t = true ↔ t ≤ 0) := by
  intro count total t ht0 ht1
  constructor
  · intro htot
    have hq : (0 : ℚ) < (total : ℚ) := by exact_mod_cast htot
    have key : ∀ u : ℚ,
        (isCoreSkill count total u = true ↔ u * total ≤ count) := by
      intro u
      simp only [isCoreSkill, rulePercentage, if_pos htot, ge_iff_le,
        decide_eq_true_eq]
      rw [div_mul_eq_mul_div, le_div_iff₀ hq]
      constructor
      · intro h; nlinarith
      · intro h; nlinarith
    refine ⟨key t, ?_⟩
    rw [key ((1 : ℚ) / 2)]
    constructor
    · intro h
      have hc : (total : ℚ) ≤ 2 * count := by linarith
      exact_mod_cast hc
    · intro h
      have hc : (total : ℚ) ≤ 2 * count := by exact_mod_cast h
      linarith
  · have hz : ¬ (0 < (0 : Nat)) := by decide
    simp only [isCoreSkill, rulePercentage, if_neg hz, ge_iff_le,
      decide_eq_true_eq]
    constructor
    · intro h; nlinarith
    · intro h; nlinarith

/-- Witness for C8: one document out of two (exactly 50%) at threshold 1/2
is flagged core — the boundary is inclusive. -/
theorem C8_core_flag_boundary_inclusive_witness :
    isCoreSkill 1 2 ((1 : ℚ) / 2) = true ↔ (2 : Nat) ≤ 2 * 1 :=
  ((C8_core_flag_boundary_inclusive 1 2 ((1 : ℚ) / 2) (by norm_num)
      (by norm_num)).1 (by decide)).2

/-- C9: for a group with zero documents both percentage computations
return 0 (the guard takes the else-branch, so no division is attempted);
for a positive total both equal `100 * count / total`. -/
theorem C9_percentage_zero_total_safe :
    ∀ (count total : Nat),
      skillPercentage count 0 = 0
      ∧ rulePercentage count 0 = 0
      ∧ (0 < total →
          skillPercentage count total = 100 * count / total
          ∧ rulePercentage count total = 100 * count / total) := by
  intro count total
  refine ⟨by simp [skillPercentage], by simp [rulePercentage],
    fun h => ⟨?_, ?_⟩⟩
  · rw [skillPercentage, if_pos h]; ring
  · rw [rulePercentage, if_pos h]; ring

/-- Witness for C9: with one occurrence in two documents the percentage is
100·1/2 in both computations. -/
theorem C9_percentage_zero_total_safe_witness :
    skillPercentage 1 2 = 100 * ((1 : Nat) : ℚ) / ((2 : Nat) : ℚ)
    ∧ rulePercentage 1 2 = 100 * ((1 : Nat) : ℚ) / ((2 : Nat) : ℚ) :=
  (C9_percentage_zero_total_safe 1 2).2.2 (by decide)

/-! ## Heap model for the dictionary getters (`SkillDictionary`)

Python sets are mutable heap objects; `get_all_skills` and
`get_skills_by_category` return `.copy()` of the internal sets.  The heap
is a store of numbered cells holding skill sets; `alloc` models creating a
fresh set object, `writeRef` models an arbitrary in-place mutation of one
set object by the caller. -/

/-- The Python object heap: an allocation counter and cell contents. -/
structure Heap where
  next : Nat
  store : Nat → List (List Char)

/-- Allocate a fresh set object holding `v` (what `set.copy()` does). -/
def alloc (h : Heap) (v : List (List Char)) : Nat × Heap :=
  (h.next, ⟨h.next + 1, fun r => if r = h.next then v else h.store r⟩)

/-- Mutate the set object in cell `r` in place. -/
def writeRef (h : Heap) (r : Nat) (v : List (List Char)) : Heap :=
  ⟨h.next, fun x => if x = r then v else h.store x⟩

/-- An arbitrary sequence of caller mutations applied to cell `r`. -/
def writeSeq (h : Heap) (r : Nat) (vs : List (List (List Char))) : Heap :=
  vs.foldl (fun hh v => writeRef hh r v) h

/-- The dictionary's internal state: references to its category sets
(`self._skills`, dict order technical, soft, custom) and to the combined
set (`self._all_skills`). -/
structure DictRefs where
  technicalRef : Nat
  softRef : Nat
  customRef : Nat
  allRef : Nat

/-- The dictionary's cells are all live (allocated below the counter). -/
def dictWF (d : DictRefs) (h : Heap) : Prop :=
  d.technicalRef < h.next ∧ d.softRef < h.next
    ∧ d.customRef < h.next ∧ d.allRef < h.next

/-- `SkillDictionary.contains`: membership of the lowercased skill in the
combined set. -/
def dictContains (d : DictRefs) (h : Heap) (skill : List Char) : Bool :=
  (h.store d.allRef).contains (lowerL skill)

/-- `SkillDictionary.get_category`: first category (dict insertion order
technical, soft, custom) containing the lowercased skill. -/
def get_category (d : DictRefs) (h : Heap) (skill : List Char) :
    Option (List Char) :=
  if (h.store d.technicalRef).contains (lowerL skill) then
    some (chars "technical")
  else if (h.store d.softRef).contains (lowerL skill) then
    some (chars "soft")
  else if (h.store d.customRef).contains (lowerL skill) then
    some (chars "custom")
  else none

/-- `SkillDictionary.get_all_skills`: `self._all_skills.copy()` — a fresh
set object holding the combined set's contents. -/
def get_all_skills (d : DictRefs) (h : Heap) : Nat × Heap :=
  alloc h (h.store d.allRef)

/-- Which internal cell a category name designates. -/
def categoryRef? (d : DictRefs) (cat : List Char) : Option Nat :=
  if cat = chars "technical" then some d.technicalRef
  else if cat = chars "soft" then some d.softRef
  else if cat = chars "custom" then some d.customRef
  else none

/-- `SkillDictionary.get_skills_by_category`:
`self._skills.get(category, set()).copy()` — a fresh set object holding
that category's contents (or empty for an unknown category). -/
def get_skills_by_category (d : DictRefs) (h : Heap) (cat : List Char) :
    Nat × Heap :=
  match categoryRef? d cat with
  | some r => alloc h (h.store r)
  | none => alloc h []

theorem writeSeq_store_ne (r x : Nat) (hx : x ≠ r) :
    ∀ (vs : List (List (List Char))) (h : Heap),
      (writeSeq h r vs).store x = h.store x := by
  intro vs
  induction vs with
  | nil => intro h; rfl
  | cons v vt ih =>
    intro h
    have hstep : writeSeq h r (v :: vt) = writeSeq (writeRef h r v) r vt := rfl
    rw [hstep, ih]
    simp [writeRef, hx]

theorem frame_alloc_writeSeq (h : Heap) (v : List (List Char))
    (vs : List (List (List Char))) (x : Nat) (hx : x < h.next) :
    (writeSeq (alloc h v).2 (alloc h v).1 vs).store x = h.store x := by
  have hxne : x ≠ h.next := Nat.ne_of_lt hx
  rw [writeSeq_store_ne (alloc h v).1 x (by simpa [alloc] using hxne)]
  simp [alloc, hxne]

/-- After any caller mutations of a freshly allocated copy, every
observation of the dictionary's own cells is unchanged. -/
theorem frame_obs (d : DictRefs) (h : Heap) (hwf : dictWF d h)
    (v : List (List Char)) (vs : List (List (List Char))) (s : List Char) :
    dictContains d (writeSeq (alloc h v).2 (alloc h v).1 vs) s
        = dictContains d h s
    ∧ get_category d (writeSeq (alloc h v).2 (alloc h v).1 vs) s
        = get_category d h s
    ∧ (writeSeq (alloc h v).2 (alloc h v).1 vs).store d.allRef
        = h.store d.allRef
    ∧ (writeSeq (alloc h v).2 (alloc h v).1 vs).store d.technicalRef
        = h.store d.technicalRef
    ∧ (writeSeq (alloc h v).2 (alloc h v).1 vs).store d.softRef
        = h.store d.softRef
    ∧ (writeSeq (alloc h v).2 (alloc h v).1 vs).store d.customRef
        = h.store d.customRef := by
  obtain ⟨h1, h2, h3, h4⟩ := hwf
  have ha := frame_alloc_writeSeq h v vs d.allRef h4
  have ht := frame_alloc_writeSeq h v vs d.technicalRef h1
  have hs := frame_alloc_writeSeq h v vs d.softRef h2
  have hc := frame_alloc_writeSeq h v vs d.customRef h3
  refine ⟨?_, ?_, ha, ht, hs, hc⟩
  · rw [dictContains, dictContains, ha]
  · rw [get_category, get_category, ht, hs, hc]

/-- C10: the sets returned by `get_all_skills` and
`get_skills_by_category` are independent copies of the dictionary's
internal state — after any sequence of caller mutations applied to the
returned set object, `contains`, `get_category` and the contents the
getters would return (the dictionary's own cells) are all unchanged. -/
theorem C10_getters_return_independent_copies :
    ∀ (d : DictRefs) (h : Heap), dictWF d h →
    ∀ (vs : List (List (List Char))) (cat : List Char) (s : List Char),
      (dictContains d
            (writeSeq (get_all_skills d h).2 (get_all_skills d h).1 vs) s
          = dictContains d h s
        ∧ get_category d
            (writeSeq (get_all_skills d h).2 (get_all_skills d h).1 vs) s
          = get_category d h s
        ∧ (writeSeq (get_all_skills d h).2
            (get_all_skills d h).1 vs).store d.allRef = h.store d.allRef
        ∧ (writeSeq (get_all_skills d h).2
            (get_all_skills d h).1 vs).store d.technicalRef
          = h.store d.technicalRef
        ∧ (writeSeq (get_all_skills d h).2
            (get_all_skills d h).1 vs).store d.softRef = h.store d.softRef
        ∧ (writeSeq (get_all_skills d h).2
            (get_all_skills d h).1 vs).store d.customRef
          = h.store d.customRef)
      ∧ (dictContains d
            (writeSeq (get_skills_by_category d h cat).2
              (get_skills_by_category d h cat).1 vs) s
          = dictContains d h s
        ∧ get_category d
            (writeSeq (get_skills_by_category d h cat).2
              (get_skills_by_category d h cat).1 vs) s
          = get_category d h s
        ∧ (writeSeq (get_skills_by_category d h cat).2
            (get_skills_by_category d h cat).1 vs).store d.allRef
          = h.store d.allRef
        ∧ (writeSeq (get_skills_by_category d h cat).2
            (get_skills_by_category d h cat).1 vs).store d.technicalRef
          = h.store d.technicalRef
        ∧ (writeSeq (get_skills_by_category d h cat).2
            (get_skills_by_category d h cat).1 vs).store d.softRef
          = h.store d.softRef
        ∧ (writeSeq (get_skills_by_category d h cat).2
            (get_skills_by_category d h cat).1 vs).store d.customRef
          = h.store d.customRef) := by
  intro d h hwf vs cat s
  constructor
  · exact frame_obs d h hwf (h.store d.allRef) vs s
  · cases hcat : categoryRef? d cat with
    | some rr =>
      simp only [get_skills_by_category, hcat]
      exact frame_obs d h hwf (h.store rr) vs s
    | none =>
      simp only [get_skills_by_category, hcat]
      exact frame_obs d h hwf [] vs s

/-- A concrete four-cell dictionary heap for the C10 witness: cells 0-2
are the category sets, cell 3 the combined set holding "python". -/
def sampleHeap : Heap :=
  ⟨4, fun r => if r = 3 then [chars "python"] else []⟩

/-- The dictionary reference layout on `sampleHeap`. -/
def sampleDict : DictRefs :=
  ⟨0, 1, 2, 3⟩

/-- Witness for C10: overwriting the copy returned by `get_all_skills`
with another skill set leaves `contains` unchanged on the dictionary. -/
theorem C10_getters_return_independent_copies_witness :
    dictContains sampleDict
        (writeSeq (get_all_skills sampleDict sampleHeap).2
          (get_all_skills sampleDict sampleHeap).1 [[chars "java"]])
        (chars "python")
      = dictContains sampleDict sampleHeap (chars "python") :=
  ((C10_getters_return_independent_copies sampleDict sampleHeap
      ⟨by decide, by decide, by decide, by decide⟩
      [[chars "java"]] (chars "technical") (chars "python")).1).1
